import Mathlib

/-!
Shallow embedding of the vault graph service: link extraction from raw
markdown text, link-target resolution, whole-vault graph construction and
the graph query operations (statistics, backlinks, outlinks, bounded-depth
local subgraph).

Text is modelled as lists of characters.  The file system is modelled by
the enumerated list of note paths (in enumeration order, which is also the
iteration order of the JavaScript Set built from it) together with a read
function returning the content of a note, or none when the read fails.
-/

namespace GraphService

/-- Characters of a string literal; used to spell concrete inputs. -/
def chars (s : String) : List Char := s.data

/-- Whitespace recognised by the trim operation applied to link targets and aliases. -/
def isWs (c : Char) : Bool :=
  c == ' ' || c == '\t' || c == '\n' || c == '\r' || c == '\x0b' || c == '\x0c'

/-- Remove leading whitespace. -/
def trimL (s : List Char) : List Char := s.dropWhile isWs

/-- Remove trailing whitespace. -/
def trimR (s : List Char) : List Char := (s.reverse.dropWhile isWs).reverse

/-- Remove leading and trailing whitespace (String.prototype.trim). -/
def trim (s : List Char) : List Char := trimR (trimL s)

/-- The first list is an initial run of the second. -/
def leadsWith : List Char → List Char → Bool
  | [], _ => true
  | _ :: _, [] => false
  | a :: pre, b :: s => a == b && leadsWith pre s

/-- The list s ends with suff (String.prototype.endsWith). -/
def hasSuffix (s suff : List Char) : Bool := leadsWith suff.reverse s.reverse

/-- ASCII case folding of every character (toLowerCase on the paths in play). -/
def lowerS (s : List Char) : List Char := s.map Char.toLower

/-- The canonical document extension. -/
def mdExt : List Char := chars (".md")

/-- The alternate extension accepted only at enumeration. -/
def markdownExt : List Char := chars (".markdown")

/-- Final path segment (path.basename on slash-separated paths with no trailing slash). -/
def basenameS (p : List Char) : List Char :=
  (p.reverse.takeWhile (fun c => c != '/')).reverse

/-- Directory part of a note path: everything before the last slash, or empty
when there is none (notePath.includes('/') ? substring(0, lastIndexOf('/')) : ''). -/
def dirOf (p : List Char) : List Char :=
  if p.contains '/' then ((p.reverse.dropWhile (fun c => c != '/')).drop 1).reverse else []

/-- Append the canonical extension when absent
(target.endsWith('.md') ? target : target + '.md'). -/
def normalizeTarget (t : List Char) : List Char :=
  if hasSuffix t mdExt then t else t ++ mdExt

/-- A raw extracted link: target string (not yet resolved) and optional alias. -/
structure ExtractedLink where
  target : List Char
  «alias» : Option (List Char)
deriving DecidableEq, Repr

/-- Match the wikilink pattern at the head of s.  The regex is
two literal brackets, a nonempty greedy run excluding bracket, pipe and hash
(the target), an optional hash followed by a greedy run excluding bracket and
pipe (the discarded heading), an optional pipe followed by a greedy run
excluding bracket (the alias), then two literal closing brackets.  Every
character class excludes the character that must follow its run, so the
backtracking regex match is computed by maximal takeWhile runs.  Returns the
target group, the alias group when present, and the remaining text. -/
def wikiMatchAt (s : List Char) : Option (List Char × Option (List Char) × List Char) :=
  match s with
  | '[' :: '[' :: rest =>
    let r1 := rest.takeWhile (fun c => !(c == ']' || c == '|' || c == '#'))
    if r1.isEmpty then none else
    let after1 := rest.drop r1.length
    let after2 :=
      match after1 with
      | '#' :: t => t.drop (t.takeWhile (fun c => !(c == ']' || c == '|'))).length
      | _ => after1
    match after2 with
    | '|' :: t =>
      let r3 := t.takeWhile (fun c => c != ']')
      (match t.drop r3.length with
       | ']' :: ']' :: rest2 => some (r1, some r3, rest2)
       | _ => none)
    | ']' :: ']' :: rest2 => some (r1, none, rest2)
    | _ => none
  | _ => none

/-- Admissible lengths for the markdown-link target group: the group is a
prefix of the run r of characters before the closing parenthesis, consists of
at least one character followed by the literal extension, and is followed
inside r either by nothing or by a hash (the discarded fragment).  The greedy
engine picks the longest admissible prefix. -/
def longestMdPrefixLen (r : List Char) : Option Nat :=
  (List.range (r.length + 1)).reverse.findSome? (fun k =>
    if 4 ≤ k ∧ hasSuffix (r.take k) mdExt ∧ (k = r.length ∨ r.get? k = some '#')
    then some k else none)

/-- Match the inline markdown link pattern at the head of s: a literal open
bracket, a greedy run excluding close-bracket (the alias text), close bracket,
open parenthesis, a target of at least one character ending in the literal
extension, an optional hash fragment, and the close parenthesis.  Everything
between the parentheses is drawn from characters excluding close-parenthesis,
so the matched close-parenthesis is the first one; backtracking on the target
group selects the longest admissible prefix.  Returns alias text, target
group and the remaining text. -/
def mdMatchAt (s : List Char) : Option (List Char × List Char × List Char) :=
  match s with
  | '[' :: rest =>
    let g1 := rest.takeWhile (fun c => c != ']')
    (match rest.drop g1.length with
     | ']' :: '(' :: rest2 =>
       let r := rest2.takeWhile (fun c => c != ')')
       (match rest2.drop r.length with
        | ')' :: rest3 =>
          (match longestMdPrefixLen r with
           | some k => some (g1, r.take k, rest3)
           | none => none)
        | _ => none)
     | _ => none)
  | _ => none

/-- Repeatedly find the leftmost wikilink match at or after the current
position, continuing after each match (regex exec with the global flag).  The
fuel argument bounds the number of steps; it is initialised to the text
length, which suffices because every step consumes at least one character. -/
def scanWikiAux : Nat → List Char → List (List Char × Option (List Char))
  | 0, _ => []
  | _, [] => []
  | fuel + 1, c :: cs =>
    match wikiMatchAt (c :: cs) with
    | some (g1, g2, rest) => (g1, g2) :: scanWikiAux fuel rest
    | none => scanWikiAux fuel cs

/-- Same scanning loop for the inline markdown link pattern. -/
def scanMdAux : Nat → List Char → List (List Char × List Char)
  | 0, _ => []
  | _, [] => []
  | fuel + 1, c :: cs =>
    match mdMatchAt (c :: cs) with
    | some (g1, g2, rest) => (g1, g2) :: scanMdAux fuel rest
    | none => scanMdAux fuel cs

/-- Extract all links from markdown content: all wikilinks in text order
first, then all inline markdown links in text order (extractLinks). -/
def extractLinks (content : List Char) : List ExtractedLink :=
  let wikis := (scanWikiAux content.length content).filterMap (fun m =>
    if m.1.isEmpty then none else
    let target := trim m.1
    let normalizedTarget := normalizeTarget target
    let aliasV :=
      match m.2 with
      | some a => (let t := trim a; if t.isEmpty then none else some t)
      | none => none
    some { target := normalizedTarget, «alias» := aliasV })
  let mds := (scanMdAux content.length content).filterMap (fun m =>
    if m.2.isEmpty then none else
    let aliasV := (let t := trim m.1; if t.isEmpty then none else some t)
    let t0 := trim m.2
    let target := if leadsWith (chars ("./")) t0 then t0.drop 2 else t0
    some { target := target, «alias» := aliasV })
  wikis ++ mds

/-- Resolve a raw link target against the known note identifiers, mirroring
resolveLink: normalize, try a direct match, try the source-directory prefix,
then scan the identifiers in order testing, per identifier, first the
case-insensitive full match and then the case-insensitive filename match. -/
def resolveLink (target : List Char) (allNotes : List (List Char)) (sourceDir : List Char) : Option (List Char) :=
  let normalizedTarget := normalizeTarget target
  if allNotes.contains normalizedTarget then some normalizedTarget
  else
    let withDir := sourceDir ++ '/' :: normalizedTarget
    if !sourceDir.isEmpty && allNotes.contains withDir then some withDir
    else
      let lowerTarget := lowerS normalizedTarget
      allNotes.find? (fun note =>
        lowerS note == lowerTarget ||
        lowerS (basenameS note) == lowerS (basenameS normalizedTarget))

/-- A graph node: note path, display label and the three derived counters. -/
structure GraphNode where
  id : List Char
  label : List Char
  links : Nat
  outlinks : Nat
  backlinks : Nat
deriving DecidableEq, Repr

/-- A graph edge: source path, target path, optional alias label. -/
structure GraphEdge where
  «from» : List Char
  «to» : List Char
  label : Option (List Char)
deriving DecidableEq, Repr

/-- A built graph: full node list plus full edge list. -/
structure Graph where
  nodes : List GraphNode
  edges : List GraphEdge
deriving DecidableEq, Repr

/-- Display label of a note (basename(notePath, '.md')): the final path
segment with a trailing '.md' stripped, unless the segment is exactly '.md'
in which case it is returned unchanged. -/
def nodeLabel (p : List Char) : List Char :=
  let b := basenameS p
  if hasSuffix b mdExt && b != mdExt then b.take (b.length - 3) else b

/-- Fresh node with zero counters, as initialised by getGraph. -/
def initNode (p : List Char) : GraphNode :=
  { id := p, label := nodeLabel p, links := 0, outlinks := 0, backlinks := 0 }

/-- Counter aggregation for one accepted edge: bump outlinks and links on the
node keyed by the edge source, then backlinks and links on the node keyed by
the edge target (the two map lookups of the aggregation loop). -/
def applyEdge (nodes : List GraphNode) (e : GraphEdge) : List GraphNode :=
  let n1 := nodes.map (fun n =>
    if n.id == e.«from» then { n with outlinks := n.outlinks + 1, links := n.links + 1 } else n)
  n1.map (fun n =>
    if n.id == e.«to» then { n with backlinks := n.backlinks + 1, links := n.links + 1 } else n)

/-- Edge list contributed by one note: none when its read fails, otherwise
one edge per extracted link that resolves to a different note. -/
def noteEdges (allNotes : List (List Char)) (readF : List Char → Option (List Char))
    (notePath : List Char) : List GraphEdge :=
  match readF notePath with
  | none => []
  | some content =>
    (extractLinks content).filterMap (fun link =>
      match resolveLink link.target allNotes (dirOf notePath) with
      | some resolvedTarget =>
        if resolvedTarget == notePath then none
        else some { «from» := notePath, «to» := resolvedTarget, label := link.«alias» }
      | none => none)

/-- Build the complete graph (getGraph): one node per enumerated note, edges
aggregated per note in enumeration order, counters folded over the edges. -/
def getGraph (notes : List (List Char)) (readF : List Char → Option (List Char)) : Graph :=
  let nodes0 := notes.map initNode
  let edges := notes.flatMap (noteEdges notes readF)
  { nodes := edges.foldl applyEdge nodes0, edges := edges }

/-- A hub entry of the statistics result. -/
structure HubInfo where
  path : List Char
  connections : Nat
deriving DecidableEq, Repr

/-- Statistics result (GraphStats). -/
structure GraphStats where
  totalNodes : Nat
  totalEdges : Nat
  orphans : List (List Char)
  hubs : List HubInfo
  unresolvedLinks : List (List Char)
deriving DecidableEq, Repr

/-- Strip one trailing canonical extension (replace of an anchored '.md'). -/
def stripMdEnd (t : List Char) : List Char :=
  if hasSuffix t mdExt then t.take (t.length - 3) else t

/-- Stable insertion, descending by links, of a node into a sorted list;
an earlier node is placed before later nodes with the same count. -/
def insertHub (x : GraphNode) : List GraphNode → List GraphNode
  | [] => [x]
  | y :: ys => if y.links ≤ x.links then x :: y :: ys else y :: insertHub x ys

/-- Stable descending sort by links (the comparator b.links - a.links). -/
def sortHubs : List GraphNode → List GraphNode
  | [] => []
  | x :: xs => insertHub x (sortHubs xs)

/-- Graph statistics (getGraphStats): orphans, hubs, and a second independent
scan collecting, deduplicated in first-occurrence order, the extension-stripped
name of every link that fails to resolve. -/
def getGraphStats (notes : List (List Char)) (readF : List Char → Option (List Char))
    (hubCount : Nat) : GraphStats :=
  let graph := getGraph notes readF
  let noteSet := graph.nodes.map (fun n => n.id)
  let orphans := (graph.nodes.filter (fun n => n.links == 0)).map (fun n => n.id)
  let hubs := ((sortHubs graph.nodes).take hubCount).map (fun n =>
    { path := n.id, connections := n.links })
  let unresolvedLinks := notes.foldl (fun acc notePath =>
    match readF notePath with
    | none => acc
    | some content =>
      (extractLinks content).foldl (fun acc2 link =>
        match resolveLink link.target noteSet (dirOf notePath) with
        | some _ => acc2
        | none =>
          let linkName := stripMdEnd link.target
          if acc2.contains linkName then acc2 else acc2 ++ [linkName]) acc) []
  { totalNodes := graph.nodes.length, totalEdges := graph.edges.length,
    orphans := orphans, hubs := hubs, unresolvedLinks := unresolvedLinks }

/-- One backlink: the linking note and, when present, the alias as context. -/
structure BacklinkInfo where
  «from» : List Char
  context : Option (List Char)
deriving DecidableEq, Repr

/-- Backlinks query result. -/
structure BacklinksResult where
  path : List Char
  backlinks : List BacklinkInfo
deriving DecidableEq, Repr

/-- Backlinks of a note (getBacklinks): the edges whose target equals the
normalized path or ends with a slash followed by it. -/
def getBacklinks (notes : List (List Char)) (readF : List Char → Option (List Char))
    (path : List Char) : BacklinksResult :=
  let graph := getGraph notes readF
  let normalizedPath := normalizeTarget path
  let backlinks := (graph.edges.filter (fun e =>
      e.«to» == normalizedPath || hasSuffix e.«to» ('/' :: normalizedPath))).map (fun e =>
    { «from» := e.«from», context := e.label })
  { path := normalizedPath, backlinks := backlinks }

/-- One outlink: resolved or raw target, resolution flag, optional alias. -/
structure OutlinkInfo where
  «to» : List Char
  resolved : Bool
  «alias» : Option (List Char)
deriving DecidableEq, Repr

/-- Outlinks query result. -/
structure OutlinksResult where
  path : List Char
  outlinks : List OutlinkInfo
deriving DecidableEq, Repr

/-- Locate the note a query path refers to: the normalized path itself when
known, otherwise the first note matching by suffix or case-insensitively,
otherwise the normalized path unchanged (the lookup loop of getOutlinks). -/
def actualPathOf (notes : List (List Char)) (normalizedPath : List Char) : List Char :=
  if notes.contains normalizedPath then normalizedPath
  else
    match notes.find? (fun note =>
        hasSuffix note normalizedPath || lowerS note == lowerS normalizedPath) with
    | some note => note
    | none => normalizedPath

/-- Outlinks of a note, continued: read the located note and report each
extracted link with its resolution; a failed read yields an empty list. -/
def getOutlinks (notes : List (List Char)) (readF : List Char → Option (List Char))
    (path : List Char) : OutlinksResult :=
  let actualPath := actualPathOf notes (normalizeTarget path)
  match readF actualPath with
  | none => { path := actualPath, outlinks := [] }
  | some content =>
    { path := actualPath,
      outlinks := (extractLinks content).map (fun link =>
        match resolveLink link.target notes (dirOf actualPath) with
        | some resolved => { «to» := resolved, resolved := true, «alias» := link.«alias» }
        | none => { «to» := link.target, resolved := false, «alias» := link.«alias» }) }

/-- All edge endpoints, sources and targets interleaved. -/
def edgeEnds (edges : List GraphEdge) : List (List Char) :=
  edges.flatMap (fun e => [e.«from», e.«to»])

/-- One edge considered in the forward direction during a BFS expansion
step: when the edge leaves the current node u and its target is not yet
included, append the target to the included list and to the queue additions. -/
def visitEdge1 (u : List Char) (d : Nat) (e : GraphEdge)
    (st : List (List Char) × List (List Char × Nat)) :
    List (List Char) × List (List Char × Nat) :=
  if e.«from» == u && !(st.1.contains e.«to»)
  then (st.1 ++ [e.«to»], st.2 ++ [(e.«to», d)]) else st

/-- The same edge considered in the reverse direction: when the edge enters
the current node u and its source is not yet included (the membership check
sees the addition possibly made by the forward direction), append the source. -/
def visitEdge2 (u : List Char) (d : Nat) (e : GraphEdge)
    (st : List (List Char) × List (List Char × Nat)) :
    List (List Char) × List (List Char × Nat) :=
  if e.«to» == u && !(st.1.contains e.«from»)
  then (st.1 ++ [e.«from»], st.2 ++ [(e.«from», d)]) else st

/-- Inner loop of one BFS expansion step (the for loop over fullGraph.edges):
fold both directions of every edge over the state of included identifiers and
pending queue additions. -/
def visitEdges (u : List Char) (d : Nat) (edges : List GraphEdge)
    (st : List (List Char) × List (List Char × Nat)) :
    List (List Char) × List (List Char × Nat) :=
  match edges with
  | [] => st
  | e :: es => visitEdges u d es (visitEdge2 u d e (visitEdge1 u d e st))

/-- The BFS worklist loop of getLocalGraph: dequeue a node, skip it when its
recorded depth has reached the bound, otherwise enqueue every not-yet-included
neighbour (in either edge direction) at depth one more.  Terminates because
every enqueued identifier is an edge endpoint newly added to the included
list, so the number of missing endpoints plus the queue length decreases. -/
def bfs (edges : List GraphEdge) (depth : Nat) :
    List (List Char × Nat) → List (List Char) → List (List Char)
  | [], included => included
  | (u, d) :: rest, included =>
    if d ≥ depth then bfs edges depth rest included
    else
      let r := visitEdges u (d + 1) edges (included, [])
      bfs edges depth (rest ++ r.2) r.1
termination_by queue included => ((edgeEnds edges).toFinset \ included.toFinset).card + queue.length
decreasing_by
· simp only [List.length_cons]
  omega
· have add1 : ∀ (inc : List (List Char)) (x : List Char),
      x ∈ edgeEnds edges → x ∉ inc →
      ((edgeEnds edges).toFinset \ (inc ++ [x]).toFinset).card + 1 =
        ((edgeEnds edges).toFinset \ inc.toFinset).card := by
    intro inc x hxE hx
    have h1 : (edgeEnds edges).toFinset \ (inc ++ [x]).toFinset =
        ((edgeEnds edges).toFinset \ inc.toFinset).erase x := by
      ext y
      by_cases hyx : y = x
      · subst hyx
        simp
      · simp [List.toFinset_append, Finset.mem_erase, hyx]
    have hmem : x ∈ (edgeEnds edges).toFinset \ inc.toFinset := by
      simp [List.mem_toFinset, hxE, hx]
    rw [h1, Finset.card_erase_of_mem hmem]
    have : 0 < ((edgeEnds edges).toFinset \ inc.toFinset).card :=
      Finset.card_pos.mpr ⟨x, hmem⟩
    omega
  have step1 : ∀ (e : GraphEdge) (st : List (List Char) × List (List Char × Nat)),
      e.«to» ∈ edgeEnds edges →
      ((edgeEnds edges).toFinset \ (visitEdge1 u (d + 1) e st).1.toFinset).card +
          (visitEdge1 u (d + 1) e st).2.length ≤
        ((edgeEnds edges).toFinset \ st.1.toFinset).card + st.2.length := by
    intro e st hE
    unfold visitEdge1
    split
    · rename_i hcond
      have hx : e.«to» ∉ st.1 := by
        rcases Bool.and_eq_true_iff.mp hcond with ⟨_, hr⟩
        simpa using hr
      have := add1 st.1 e.«to» hE hx
      simp only [List.length_append, List.length_cons, List.length_nil]
      omega
    · exact le_refl _
  have step2 : ∀ (e : GraphEdge) (st : List (List Char) × List (List Char × Nat)),
      e.«from» ∈ edgeEnds edges →
      ((edgeEnds edges).toFinset \ (visitEdge2 u (d + 1) e st).1.toFinset).card +
          (visitEdge2 u (d + 1) e st).2.length ≤
        ((edgeEnds edges).toFinset \ st.1.toFinset).card + st.2.length := by
    intro e st hE
    unfold visitEdge2
    split
    · rename_i hcond
      have hx : e.«from» ∉ st.1 := by
        rcases Bool.and_eq_true_iff.mp hcond with ⟨_, hr⟩
        simpa using hr
      have := add1 st.1 e.«from» hE hx
      simp only [List.length_append, List.length_cons, List.length_nil]
      omega
    · exact le_refl _
  have K : ∀ (es : List GraphEdge) (st : List (List Char) × List (List Char × Nat)),
      (∀ e ∈ es, e.«from» ∈ edgeEnds edges ∧ e.«to» ∈ edgeEnds edges) →
      ((edgeEnds edges).toFinset \ (visitEdges u (d + 1) es st).1.toFinset).card +
          (visitEdges u (d + 1) es st).2.length ≤
        ((edgeEnds edges).toFinset \ st.1.toFinset).card + st.2.length := by
    intro es
    induction es with
    | nil => intro st _; simp [visitEdges]
    | cons e es ih =>
      intro st hmem
      have he : e.«from» ∈ edgeEnds edges ∧ e.«to» ∈ edgeEnds edges := hmem e (by simp)
      have hmem' : ∀ e' ∈ es, e'.«from» ∈ edgeEnds edges ∧ e'.«to» ∈ edgeEnds edges := by
        intro e' h'; exact hmem e' (by simp [h'])
      rw [visitEdges]
      refine le_trans (ih _ hmem') (le_trans (step2 e _ he.1) (step1 e _ he.2))
  have hends : ∀ e ∈ edges, e.«from» ∈ edgeEnds edges ∧ e.«to» ∈ edgeEnds edges := by
    intro e he
    exact ⟨List.mem_flatMap.mpr ⟨e, he, by simp⟩, List.mem_flatMap.mpr ⟨e, he, by simp⟩⟩
  have hK := K edges (included, []) hends
  simp only [List.length_append, List.length_cons, List.length_nil] at *
  omega

/-- The identifiers visited by the BFS of getLocalGraph: start from the
centre identifier at depth zero and run the worklist loop. -/
def localIncluded (g : Graph) (centerId : List Char) (depth : Nat) : List (List Char) :=
  bfs g.edges depth [(centerId, 0)] [centerId]

/-- Locate the centre node of the local subgraph: exact identifier match
first, then the suffix or case-insensitive fallback. -/
def findCenter (g : Graph) (normalizedPath : List Char) : Option GraphNode :=
  match g.nodes.find? (fun n => n.id == normalizedPath) with
  | some n => some n
  | none => g.nodes.find? (fun n =>
      hasSuffix n.id normalizedPath || lowerS n.id == lowerS normalizedPath)

/-- Local subgraph around a note (getLocalGraph): build the full graph, find
the centre, breadth-first visit the undirected neighbourhood up to the depth
bound, and return the nodes and edges induced by the visited set. -/
def getLocalGraph (notes : List (List Char)) (readF : List Char → Option (List Char))
    (path : List Char) (depth : Nat) : Graph :=
  let fullGraph := getGraph notes readF
  let normalizedPath := normalizeTarget path
  match findCenter fullGraph normalizedPath with
  | none => { nodes := [], edges := [] }
  | some centerNode =>
    let included := localIncluded fullGraph centerNode.id depth
    { nodes := fullGraph.nodes.filter (fun n => included.contains n.id),
      edges := fullGraph.edges.filter (fun e =>
        included.contains e.«from» && included.contains e.«to») }

/-- Identifiers freshly added when the BFS expands node u over the edge
list, given the already-included identifiers: the opposite endpoint of every
incident edge not yet included, forward direction before reverse direction
per edge, each endpoint recorded once (later checks see earlier additions). -/
def freshL (u : List Char) : List GraphEdge → List (List Char) → List (List Char)
  | [], _ => []
  | e :: es, inc =>
    let f1 := if e.«from» == u && !(inc.contains e.«to») then [e.«to»] else []
    let f2 := if e.«to» == u && !((inc ++ f1).contains e.«from») then [e.«from»] else []
    f1 ++ f2 ++ freshL u es (inc ++ f1 ++ f2)

/-- Expand one whole BFS level: fold the per-node expansion over the frontier,
returning the grown included list and the next frontier. -/
def levelExpand (edges : List GraphEdge) : List (List Char) → List (List Char) → List (List Char) × List (List Char)
  | [], inc => (inc, [])
  | u :: us, inc =>
    let f := freshL u edges inc
    let r := levelExpand edges us (inc ++ f)
    (r.1, f ++ r.2)

/-- Level-synchronous reformulation of the BFS: run the remaining number of
levels, expanding the whole frontier at each step. -/
def lbfs (edges : List GraphEdge) : Nat → List (List Char) → List (List Char) → List (List Char)
  | 0, _, inc => inc
  | r + 1, frontier, inc =>
    let p := levelExpand edges frontier inc
    lbfs edges r p.2 p.1

/-- Undirected adjacency in an edge list: some edge joins u and v in either
direction. -/
def adjIn (edges : List GraphEdge) (u v : List Char) : Prop :=
  ∃ e ∈ edges, (e.«from» = u ∧ e.«to» = v) ∨ (e.«to» = u ∧ e.«from» = v)

/-- Iterated undirected neighbourhood of a set of identifiers: spread S k
holds of the identifiers at undirected distance at most k from S. -/
def spread (edges : List GraphEdge) (S : List Char → Prop) : Nat → List Char → Prop
  | 0 => S
  | k + 1 => fun x => spread edges S k x ∨ ∃ u, spread edges S k u ∧ adjIn edges u x

/-- The identifier x lies at undirected distance at most k from c in the
given edge list. -/
def reachable (edges : List GraphEdge) (c : List Char) (k : Nat) (x : List Char) : Prop :=
  spread edges (fun y => y = c) k x

/-- Concrete three-note vault exercising the backlinks suffix rule. -/
def backNotes : List (List Char) := [chars ("folder/x.md"), chars ("x.md"), chars ("a.md")]

/-- Read function of the concrete backlinks vault: a.md links to folder/x and,
with an alias, to x. -/
def backRead (p : List Char) : Option (List Char) :=
  if p == chars ("a.md") then some (chars ("[[folder/x]] [[x|Alias]]")) else none

/-- Concrete chain vault with links A.md to B.md to C.md. -/
def chainNotes : List (List Char) := [chars ("A.md"), chars ("B.md"), chars ("C.md")]

/-- Read function of the chain vault. -/
def chainRead (p : List Char) : Option (List Char) :=
  if p == chars ("A.md") then some (chars ("[[B]]"))
  else if p == chars ("B.md") then some (chars ("[[C]]")) else none


theorem leadsWith_iff (pre s : List Char) : leadsWith pre s = true ↔ ∃ r, s = pre ++ r := by
  induction pre generalizing s with
  | nil => simp [leadsWith]
  | cons a pre ih =>
    cases s with
    | nil => simp [leadsWith]
    | cons b s =>
      simp only [leadsWith, Bool.and_eq_true, beq_iff_eq, ih, List.cons_append, List.cons.injEq]
      constructor
      · rintro ⟨h1, r, h2⟩; exact ⟨r, h1.symm, h2⟩
      · rintro ⟨r, h1, h2⟩; exact ⟨h1.symm, r, h2⟩

theorem hasSuffix_iff (s suff : List Char) : hasSuffix s suff = true ↔ ∃ p, s = p ++ suff := by
  rw [hasSuffix, leadsWith_iff]
  constructor
  · rintro ⟨r, h⟩
    refine ⟨r.reverse, ?_⟩
    have := congrArg List.reverse h
    simpa using this
  · rintro ⟨p, rfl⟩
    exact ⟨p.reverse, by simp⟩

theorem hasSuffix_append (p suff : List Char) : hasSuffix (p ++ suff) suff = true :=
  (hasSuffix_iff _ _).mpr ⟨p, rfl⟩

theorem normalizeTarget_suffix (t : List Char) : hasSuffix (normalizeTarget t) mdExt = true := by
  unfold normalizeTarget
  split
  · assumption
  · exact hasSuffix_append t mdExt

theorem suffix_md_markdown_false (s : List Char) (h1 : hasSuffix s mdExt = true)
    (h2 : hasSuffix s markdownExt = true) : False := by
  rw [hasSuffix] at h1 h2
  have e1 : mdExt.reverse = 'd' :: 'm' :: '.' :: [] := by decide
  have e2 : markdownExt.reverse = 'n' :: 'w' :: 'o' :: 'd' :: 'k' :: 'r' :: 'a' :: 'm' :: '.' :: [] := by decide
  rw [e1] at h1
  rw [e2] at h2
  cases hs : s.reverse with
  | nil => rw [hs] at h1; simp [leadsWith] at h1
  | cons c cs =>
    rw [hs] at h1 h2
    simp only [leadsWith, Bool.and_eq_true, beq_iff_eq] at h1 h2
    exact absurd (h1.1.trans h2.1.symm) (by decide)

theorem lowerS_append (a b : List Char) : lowerS (a ++ b) = lowerS a ++ lowerS b := by
  simp [lowerS]

theorem hasSuffix_lowerS (s suff : List Char) (h : hasSuffix s suff = true) :
    hasSuffix (lowerS s) (lowerS suff) = true := by
  rcases (hasSuffix_iff _ _).mp h with ⟨p, rfl⟩
  rw [lowerS_append]
  exact hasSuffix_append _ _

theorem lowerS_mdExt : lowerS mdExt = mdExt := by decide

theorem lowerS_markdownExt : lowerS markdownExt = markdownExt := by decide

theorem takeWhile_append_cons (p : Char → Bool) (l1 l2 : List Char) (x : Char)
    (hx : p x = false) : (l1 ++ x :: l2).takeWhile p = l1.takeWhile p := by
  induction l1 with
  | nil => simp [List.takeWhile, hx]
  | cons a l1 ih =>
    simp only [List.cons_append, List.takeWhile]
    cases p a <;> simp [ih]

theorem takeWhile_append_all (p : Char → Bool) (l1 l2 : List Char)
    (h : ∀ a ∈ l1, p a = true) : (l1 ++ l2).takeWhile p = l1 ++ l2.takeWhile p := by
  induction l1 with
  | nil => simp
  | cons a l1 ih =>
    have ha : p a = true := h a (by simp)
    simp only [List.cons_append, List.takeWhile, ha]
    simp [ih (fun a ha => h a (by simp [ha]))]

theorem basenameS_append_slash (d n : List Char) : basenameS (d ++ '/' :: n) = basenameS n := by
  unfold basenameS
  have : (d ++ '/' :: n).reverse = n.reverse ++ '/' :: d.reverse := by simp
  rw [this, takeWhile_append_cons _ _ _ _ (by decide)]

theorem basenameS_suffix (s ext : List Char) (h : hasSuffix s ext = true)
    (hx : ∀ c ∈ ext, c ≠ '/') : hasSuffix (basenameS s) ext = true := by
  rcases (hasSuffix_iff _ _).mp h with ⟨p, rfl⟩
  have hall : ∀ a ∈ ext.reverse, (fun c => c != '/') a = true := by
    intro a ha
    have := hx a (List.mem_reverse.mp ha)
    simpa using this
  unfold basenameS
  rw [List.reverse_append, takeWhile_append_all _ _ _ hall, List.reverse_append,
    List.reverse_reverse]
  exact hasSuffix_append _ _

theorem basenameS_suffix_md (s : List Char) (h : hasSuffix s mdExt = true) :
    hasSuffix (basenameS s) mdExt = true :=
  basenameS_suffix s mdExt h (by decide)

theorem basenameS_suffix_markdown (s : List Char) (h : hasSuffix s markdownExt = true) :
    hasSuffix (basenameS s) markdownExt = true :=
  basenameS_suffix s markdownExt h (by decide)

theorem contains_iff (l : List (List Char)) (x : List Char) : l.contains x = true ↔ x ∈ l := by
  simp

theorem resolveLink_mem (t : List Char) (notes : List (List Char)) (dir : List Char)
    (r : List Char) (h : resolveLink t notes dir = some r) : r ∈ notes := by
  simp only [resolveLink] at h
  split at h
  · rename_i hc
    cases h
    exact (contains_iff _ _).mp hc
  · split at h
    · rename_i hc
      cases h
      exact (contains_iff _ _).mp (Bool.and_eq_true_iff.mp hc).2
    · exact List.mem_of_find?_eq_some h

theorem resolveLink_matches (t : List Char) (notes : List (List Char)) (dir : List Char)
    (r : List Char) (h : resolveLink t notes dir = some r) :
    lowerS r = lowerS (normalizeTarget t) ∨
      lowerS (basenameS r) = lowerS (basenameS (normalizeTarget t)) := by
  simp only [resolveLink] at h
  split at h
  · cases h
    exact Or.inl rfl
  · split at h
    · cases h
      exact Or.inr (by rw [basenameS_append_slash])
    · have hp := List.find?_some h
      rcases Bool.or_eq_true_iff.mp hp with hci | hbn
      · exact Or.inl (by simpa using hci)
      · exact Or.inr (by simpa using hbn)

theorem resolveLink_not_markdown (t : List Char) (notes : List (List Char)) (dir : List Char)
    (r : List Char) (h : resolveLink t notes dir = some r) :
    hasSuffix r markdownExt = false := by
  by_contra hmk
  have hmk' : hasSuffix r markdownExt = true := by
    cases hh : hasSuffix r markdownExt
    · exact absurd hh hmk
    · rfl
  have hnorm : hasSuffix (lowerS (normalizeTarget t)) mdExt = true := by
    have := hasSuffix_lowerS _ _ (normalizeTarget_suffix t)
    rwa [lowerS_mdExt] at this
  rcases resolveLink_matches t notes dir r h with hci | hbn
  · have h1 : hasSuffix (lowerS r) mdExt = true := by rw [hci]; exact hnorm
    have h2 : hasSuffix (lowerS r) markdownExt = true := by
      have := hasSuffix_lowerS _ _ hmk'
      rwa [lowerS_markdownExt] at this
    exact suffix_md_markdown_false _ h1 h2
  · have h1 : hasSuffix (lowerS (basenameS r)) mdExt = true := by
      rw [hbn]
      have := hasSuffix_lowerS _ _ (basenameS_suffix_md _ (normalizeTarget_suffix t))
      rwa [lowerS_mdExt] at this
    have h2 : hasSuffix (lowerS (basenameS r)) markdownExt = true := by
      have := hasSuffix_lowerS _ _ (basenameS_suffix_markdown _ hmk')
      rwa [lowerS_markdownExt] at this
    exact suffix_md_markdown_false _ h1 h2


theorem foldl_applyEdge (es : List GraphEdge) (ns : List GraphNode) :
    es.foldl applyEdge ns = ns.map (fun n =>
      { n with
        links := n.links + es.countP (fun e => e.«from» == n.id)
          + es.countP (fun e => e.«to» == n.id),
        outlinks := n.outlinks + es.countP (fun e => e.«from» == n.id),
        backlinks := n.backlinks + es.countP (fun e => e.«to» == n.id) }) := by
  induction es generalizing ns with
  | nil => simp
  | cons e es ih =>
    rw [List.foldl_cons, ih]
    simp only [applyEdge, List.map_map]
    refine congrArg (fun f => List.map f ns) (funext fun n => ?_)
    by_cases h1 : n.id = e.«from» <;> by_cases h2 : n.id = e.«to»
    · have hb1 : (n.id == e.«from») = true := beq_iff_eq.mpr h1
      have hb1' : (e.«from» == n.id) = true := beq_iff_eq.mpr h1.symm
      have hb2 : (n.id == e.«to») = true := beq_iff_eq.mpr h2
      have hb2' : (e.«to» == n.id) = true := beq_iff_eq.mpr h2.symm
      simp [List.countP_cons, hb1, hb1', hb2, hb2', Function.comp]
      all_goals and_intros <;> first | rfl | omega
    · have hb1 : (n.id == e.«from») = true := beq_iff_eq.mpr h1
      have hb1' : (e.«from» == n.id) = true := beq_iff_eq.mpr h1.symm
      have hb2 : (n.id == e.«to») = false := by simp [h2]
      have hb2' : (e.«to» == n.id) = false := by simp; exact fun h => h2 h.symm
      simp [List.countP_cons, hb1, hb1', hb2, hb2', Function.comp]
      all_goals and_intros <;> first | rfl | omega
    · have hb1 : (n.id == e.«from») = false := by simp [h1]
      have hb1' : (e.«from» == n.id) = false := by simp; exact fun h => h1 h.symm
      have hb2 : (n.id == e.«to») = true := beq_iff_eq.mpr h2
      have hb2' : (e.«to» == n.id) = true := beq_iff_eq.mpr h2.symm
      simp [List.countP_cons, hb1, hb1', hb2, hb2', Function.comp]
      all_goals and_intros <;> first | rfl | omega
    · have hb1 : (n.id == e.«from») = false := by simp [h1]
      have hb1' : (e.«from» == n.id) = false := by simp; exact fun h => h1 h.symm
      have hb2 : (n.id == e.«to») = false := by simp [h2]
      have hb2' : (e.«to» == n.id) = false := by simp; exact fun h => h2 h.symm
      simp [List.countP_cons, hb1, hb1', hb2, hb2', Function.comp]

theorem getGraph_edges (notes : List (List Char)) (readF : List Char → Option (List Char)) :
    (getGraph notes readF).edges = notes.flatMap (noteEdges notes readF) := rfl

theorem getGraph_nodes (notes : List (List Char)) (readF : List Char → Option (List Char)) :
    (getGraph notes readF).nodes = notes.map (fun p =>
      { id := p, label := nodeLabel p,
        links := ((getGraph notes readF).edges.countP (fun e => e.«from» == p))
          + ((getGraph notes readF).edges.countP (fun e => e.«to» == p)),
        outlinks := (getGraph notes readF).edges.countP (fun e => e.«from» == p),
        backlinks := (getGraph notes readF).edges.countP (fun e => e.«to» == p) }) := by
  show (notes.flatMap (noteEdges notes readF)).foldl applyEdge (notes.map initNode) = _
  rw [foldl_applyEdge, List.map_map]
  refine congrArg (fun f => List.map f notes) (funext fun p => ?_)
  simp [initNode, getGraph_edges, Function.comp]

theorem noteEdges_spec (allNotes : List (List Char)) (readF : List Char → Option (List Char))
    (notePath : List Char) (e : GraphEdge) (he : e ∈ noteEdges allNotes readF notePath) :
    e.«from» = notePath ∧ e.«to» ≠ notePath ∧
      ∃ t dir, resolveLink t allNotes dir = some e.«to» := by
  unfold noteEdges at he
  split at he
  · cases he
  · rcases List.mem_filterMap.mp he with ⟨link, _, hf⟩
    rcases hres : resolveLink link.target allNotes (dirOf notePath) with _ | rt
    · simp [hres] at hf
    · simp only [hres] at hf
      by_cases hrt : (rt == notePath) = true
      · rw [if_pos hrt] at hf
        cases hf
      · rw [if_neg hrt] at hf
        cases hf
        refine ⟨rfl, ?_, link.target, dirOf notePath, hres⟩
        simpa using hrt

theorem getGraph_edge_spec (notes : List (List Char)) (readF : List Char → Option (List Char))
    (e : GraphEdge) (he : e ∈ (getGraph notes readF).edges) :
    e.«from» ∈ notes ∧ e.«to» ∈ notes ∧ e.«from» ≠ e.«to» ∧
      hasSuffix e.«to» markdownExt = false := by
  rw [getGraph_edges] at he
  rcases List.mem_flatMap.mp he with ⟨p, hp, hmem⟩
  rcases noteEdges_spec notes readF p e hmem with ⟨hfrom, hne, t, dir, hres⟩
  exact ⟨hfrom ▸ hp, resolveLink_mem t notes dir _ hres,
    fun h => hne (h.symm.trans hfrom), resolveLink_not_markdown t notes dir _ hres⟩

theorem sum_map_add {α : Type} (l : List α) (f g : α → Nat) :
    (l.map (fun a => f a + g a)).sum = (l.map f).sum + (l.map g).sum := by
  induction l with
  | nil => simp
  | cons a l ih => simp [ih]; omega

theorem sum_indicator_zero (ids : List (List Char)) (x : List Char) (hx : x ∉ ids) :
    (ids.map (fun i => if x = i then 1 else 0)).sum = 0 := by
  induction ids with
  | nil => simp
  | cons a ids ih =>
    have hxa : x ≠ a := fun h => hx (h ▸ List.mem_cons_self a ids)
    have hx' : x ∉ ids := fun h => hx (List.mem_cons_of_mem a h)
    simp [hxa, ih hx']

theorem sum_indicator_one (ids : List (List Char)) (x : List Char) (hnd : ids.Nodup)
    (hx : x ∈ ids) : (ids.map (fun i => if x = i then 1 else 0)).sum = 1 := by
  induction ids with
  | nil => cases hx
  | cons a ids ih =>
    rcases List.nodup_cons.mp hnd with ⟨ha, hnd'⟩
    rcases List.mem_cons.mp hx with rfl | hx'
    · simp [sum_indicator_zero ids x ha]
    · have hxa : x ≠ a := fun h => ha (h ▸ hx')
      simp [hxa, ih hnd' hx']

theorem sum_countP_key (ids : List (List Char)) (es : List GraphEdge)
    (key : GraphEdge → List Char) (hnd : ids.Nodup) (hmem : ∀ e ∈ es, key e ∈ ids) :
    (ids.map (fun i => es.countP (fun e => key e == i))).sum = es.length := by
  induction es with
  | nil => simp
  | cons e es ih =>
    have hstep : (ids.map (fun i => List.countP (fun e' => key e' == i) (e :: es))).sum
        = (ids.map (fun i => List.countP (fun e' => key e' == i) es
            + (if key e = i then 1 else 0))).sum := by
      refine congrArg _ (congrArg (fun f => List.map f ids) (funext fun i => ?_))
      rw [List.countP_cons]
      by_cases h : key e = i <;> simp [h]
    rw [hstep, sum_map_add, ih (fun e' he' => hmem e' (List.mem_cons_of_mem e he')),
      sum_indicator_one ids (key e) hnd (hmem e (List.mem_cons_self e es)), List.length_cons]


/-- C1 counterexample: with known identifiers dir/x.md and X.md (in that
iteration order) and target x, some identifier (X.md) matches the normalized
target x.md case-insensitively in full, yet resolution returns dir/x.md, a
filename-only match with a different identifier that is not a full match. -/
theorem c1_counterexample :
    resolveLink (chars ("x")) [chars ("dir/x.md"), chars ("X.md")] []
        = some (chars ("dir/x.md")) ∧
    lowerS (chars ("X.md")) = lowerS (normalizeTarget (chars ("x"))) ∧
    chars ("dir/x.md") ≠ chars ("X.md") ∧
    lowerS (chars ("dir/x.md")) ≠ lowerS (normalizeTarget (chars ("x"))) := by decide

/-- C1 amended: the case-insensitive full test and the filename test are
interleaved in one scan, per identifier, so when some known identifier
matches the normalized target case-insensitively in full, resolution is
guaranteed to succeed, and the returned identifier matches the normalized
target either case-insensitively in full or by case-insensitive filename —
but it may be a filename-only match occurring earlier in iteration order
rather than the full match. -/
theorem c1_amended (target : List Char) (allNotes : List (List Char)) (sourceDir : List Char)
    (h : ∃ note ∈ allNotes, lowerS note = lowerS (normalizeTarget target)) :
    ∃ r, resolveLink target allNotes sourceDir = some r ∧
      (lowerS r = lowerS (normalizeTarget target) ∨
        lowerS (basenameS r) = lowerS (basenameS (normalizeTarget target))) := by
  rcases hres : resolveLink target allNotes sourceDir with _ | r
  · exfalso
    simp only [resolveLink] at hres
    split at hres
    · cases hres
    · split at hres
      · cases hres
      · rcases h with ⟨note, hmem, hci⟩
        have hnone := List.find?_eq_none.mp hres note hmem
        simp only [Bool.or_eq_true, beq_iff_eq, not_or] at hnone
        exact hnone.1 hci
  · exact ⟨r, rfl, resolveLink_matches _ _ _ _ hres⟩

theorem c1_amended_witness :
    ∃ r, resolveLink (chars ("x")) [chars ("dir/x.md"), chars ("X.md")] [] = some r ∧
      (lowerS r = lowerS (normalizeTarget (chars ("x"))) ∨
        lowerS (basenameS r) = lowerS (basenameS (normalizeTarget (chars ("x"))))) :=
  c1_amended (chars ("x")) [chars ("dir/x.md"), chars ("X.md")] []
    ⟨chars ("X.md"), by decide, by decide⟩

/-- C2: in every graph built from a duplicate-free note enumeration, each
node satisfies links = outlinks + backlinks, the outlinks counter equals
the number of accepted edges with that node as source, the backlinks counter
the number with it as target, and the total edge count equals the sum of the
outlinks counters and also the sum of the backlinks counters. -/
theorem c2_counters (notes : List (List Char)) (readF : List Char → Option (List Char))
    (hnd : notes.Nodup) :
    (∀ n ∈ (getGraph notes readF).nodes,
      n.links = n.outlinks + n.backlinks ∧
      n.outlinks = (getGraph notes readF).edges.countP (fun e => e.«from» == n.id) ∧
      n.backlinks = (getGraph notes readF).edges.countP (fun e => e.«to» == n.id)) ∧
    ((getGraph notes readF).nodes.map (fun n => n.outlinks)).sum
      = (getGraph notes readF).edges.length ∧
    ((getGraph notes readF).nodes.map (fun n => n.backlinks)).sum
      = (getGraph notes readF).edges.length := by
  refine ⟨?_, ?_, ?_⟩
  · intro n hn
    rw [getGraph_nodes] at hn
    rcases List.mem_map.mp hn with ⟨p, _, rfl⟩
    exact ⟨rfl, rfl, rfl⟩
  · rw [getGraph_nodes, List.map_map]
    exact sum_countP_key notes _ (fun e => e.«from») hnd
      (fun e he => (getGraph_edge_spec notes readF e he).1)
  · rw [getGraph_nodes, List.map_map]
    exact sum_countP_key notes _ (fun e => e.«to») hnd
      (fun e he => (getGraph_edge_spec notes readF e he).2.1)

theorem c2_counters_witness :
    ((getGraph [chars ("a.md"), chars ("b.md")]
        (fun p => if p == chars ("a.md") then some (chars ("[[b]]")) else none)).nodes.map
          (fun n => n.outlinks)).sum
      = (getGraph [chars ("a.md"), chars ("b.md")]
          (fun p => if p == chars ("a.md") then some (chars ("[[b]]")) else none)).edges.length :=
  (c2_counters [chars ("a.md"), chars ("b.md")]
    (fun p => if p == chars ("a.md") then some (chars ("[[b]]")) else none) (by decide)).2.1

/-- C3: in every built graph, both endpoints of every edge are identifiers of
nodes of the graph, and no edge is a self-edge. -/
theorem c3_edge_endpoints (notes : List (List Char)) (readF : List Char → Option (List Char)) :
    ∀ e ∈ (getGraph notes readF).edges,
      (∃ n ∈ (getGraph notes readF).nodes, n.id = e.«from») ∧
      (∃ n ∈ (getGraph notes readF).nodes, n.id = e.«to») ∧ e.«from» ≠ e.«to» := by
  intro e he
  rcases getGraph_edge_spec notes readF e he with ⟨h1, h2, h3, _⟩
  have node_of : ∀ p ∈ notes, ∃ n ∈ (getGraph notes readF).nodes, n.id = p := by
    intro p hp
    rw [getGraph_nodes]
    exact ⟨_, List.mem_map_of_mem _ hp, rfl⟩
  exact ⟨node_of _ h1, node_of _ h2, h3⟩

theorem c3_edge_endpoints_witness :
    (∃ n ∈ (getGraph [chars ("a.md"), chars ("b.md")]
        (fun p => if p == chars ("a.md") then some (chars ("[[b]]")) else none)).nodes,
      n.id = chars ("a.md")) ∧
    (∃ n ∈ (getGraph [chars ("a.md"), chars ("b.md")]
        (fun p => if p == chars ("a.md") then some (chars ("[[b]]")) else none)).nodes,
      n.id = chars ("b.md")) ∧
    chars ("a.md") ≠ chars ("b.md") :=
  c3_edge_endpoints [chars ("a.md"), chars ("b.md")]
    (fun p => if p == chars ("a.md") then some (chars ("[[b]]")) else none)
    { «from» := chars ("a.md"), «to» := chars ("b.md"), label := none } (by decide)

/-- C8: a note whose read fails contributes no edges while its node stays in
the graph with a zero outlinks counter, the build still returns a graph, and
a read failure on the note located by the outlinks query yields an empty
outlink list rather than an error. -/
theorem c8_read_failure (notes : List (List Char)) (readF : List Char → Option (List Char))
    (p q : List Char) (h : readF p = none) :
    (∀ e ∈ (getGraph notes readF).edges, e.«from» ≠ p) ∧
    (p ∈ notes → ∃ n ∈ (getGraph notes readF).nodes, n.id = p ∧ n.outlinks = 0) ∧
    (readF ((getOutlinks notes readF q).path) = none →
      (getOutlinks notes readF q).outlinks = []) := by
  have hemp : noteEdges notes readF p = [] := by unfold noteEdges; rw [h]
  have hno : ∀ e ∈ (getGraph notes readF).edges, e.«from» ≠ p := by
    intro e he heq
    rw [getGraph_edges] at he
    rcases List.mem_flatMap.mp he with ⟨r, _, hmem⟩
    have hfr := (noteEdges_spec notes readF r e hmem).1
    rw [heq] at hfr
    rw [← hfr, hemp] at hmem
    cases hmem
  refine ⟨hno, ?_, ?_⟩
  · intro hp
    rw [getGraph_nodes]
    refine ⟨_, List.mem_map_of_mem _ hp, rfl, ?_⟩
    show (getGraph notes readF).edges.countP (fun e => e.«from» == p) = 0
    rw [List.countP_eq_zero]
    intro e he hbe
    exact hno e he (by simpa using hbe)
  · intro hnone
    have hpath : (getOutlinks notes readF q).path = actualPathOf notes (normalizeTarget q) := by
      unfold getOutlinks
      cases hr : readF (actualPathOf notes (normalizeTarget q)) <;> simp [hr]
    rw [hpath] at hnone
    unfold getOutlinks
    simp only [hnone]

theorem c8_read_failure_witness :
    (getOutlinks [chars ("a.md")] (fun _ => none) (chars ("a.md"))).outlinks = [] :=
  (c8_read_failure [chars ("a.md")] (fun _ => none) (chars ("a.md")) (chars ("a.md"))
    rfl).2.2 rfl

/-- C9: in every built graph no edge targets an identifier carrying the
alternate .markdown extension, every such node has a zero backlinks counter,
and concretely a note linking to a .markdown note by name produces no edge. -/
theorem c9_markdown_never_target (notes : List (List Char))
    (readF : List Char → Option (List Char)) :
    (∀ e ∈ (getGraph notes readF).edges, hasSuffix e.«to» markdownExt = false) ∧
    (∀ n ∈ (getGraph notes readF).nodes,
      hasSuffix n.id markdownExt = true → n.backlinks = 0) ∧
    (getGraph [chars ("a.md"), chars ("n.markdown")]
        (fun p => if p == chars ("a.md") then some (chars ("[[n]]")) else none)).edges = [] := by
  refine ⟨?_, ?_, by decide⟩
  · intro e he
    exact (getGraph_edge_spec notes readF e he).2.2.2
  · intro n hn hmk
    rw [getGraph_nodes] at hn
    rcases List.mem_map.mp hn with ⟨p, _, rfl⟩
    have hmk' : hasSuffix p markdownExt = true := hmk
    show (getGraph notes readF).edges.countP (fun e => e.«to» == p) = 0
    rw [List.countP_eq_zero]
    intro e he hbe
    have heq : e.«to» = p := by simpa using hbe
    have hto := (getGraph_edge_spec notes readF e he).2.2.2
    rw [heq, hmk'] at hto
    cases hto

theorem c9_markdown_never_target_witness :
    hasSuffix (chars ("b.md")) markdownExt = false :=
  (c9_markdown_never_target [chars ("a.md"), chars ("b.md")]
    (fun p => if p == chars ("a.md") then some (chars ("[[b]]")) else none)).1
    { «from» := chars ("a.md"), «to» := chars ("b.md"), label := none } (by decide)

/-- C7 counterexample: a note enumerated under the alternate .markdown
extension keeps the extension in its display label, so the label is not the
identifier with directory and extension stripped (which would be n). -/
theorem c7_counterexample :
    (getGraph [chars ("n.markdown")] (fun _ => none)).nodes =
      [{ id := chars ("n.markdown"), label := chars ("n.markdown"),
         links := 0, outlinks := 0, backlinks := 0 }] ∧
    chars ("n.markdown") ≠ chars ("n") := by decide

/-- C7 amended: every node label is the final path segment of the identifier
with one trailing .md extension stripped (unless the segment is exactly
.md); in particular for identifiers ending in .md the label plus .md
reconstitutes the segment, while for identifiers ending in the alternate
.markdown extension the label keeps the extension unchanged. -/
theorem c7_amended (notes : List (List Char)) (readF : List Char → Option (List Char)) :
    ∀ n ∈ (getGraph notes readF).nodes,
      n.label = nodeLabel n.id ∧
      (hasSuffix (basenameS n.id) mdExt = true → basenameS n.id ≠ mdExt →
        n.label ++ mdExt = basenameS n.id) ∧
      (hasSuffix n.id markdownExt = true → n.label = basenameS n.id) := by
  intro n hn
  rw [getGraph_nodes] at hn
  rcases List.mem_map.mp hn with ⟨p, _, rfl⟩
  refine ⟨rfl, ?_, ?_⟩
  · intro hmd hne
    show nodeLabel p ++ mdExt = basenameS p
    have hc : (hasSuffix (basenameS p) mdExt && (basenameS p != mdExt)) = true := by
      simp [hmd, bne_iff_ne, hne]
    unfold nodeLabel
    rw [if_pos hc]
    rcases (hasSuffix_iff _ _).mp hmd with ⟨qpre, hq⟩
    rw [hq]
    have hlen : (qpre ++ mdExt).length - 3 = qpre.length := by
      simp [List.length_append]
      rfl
    rw [hlen]
    rw [show qpre.length = qpre.length from rfl, List.take_left]
  · intro hmk
    have hmk' : hasSuffix p markdownExt = true := hmk
    show nodeLabel p = basenameS p
    have h1 : hasSuffix (basenameS p) mdExt = false := by
      cases hh : hasSuffix (basenameS p) mdExt
      · rfl
      · exact absurd (suffix_md_markdown_false _ hh (basenameS_suffix_markdown p hmk')) id
    unfold nodeLabel
    rw [if_neg (by simp [h1])]

theorem c7_amended_witness :
    chars ("n.markdown") = basenameS (chars ("n.markdown")) :=
  (c7_amended [chars ("n.markdown")] (fun _ => none)
    { id := chars ("n.markdown"), label := chars ("n.markdown"),
      links := 0, outlinks := 0, backlinks := 0 } (by decide)).2.2 (by decide)


theorem mem_trim (c : Char) (x : List Char) (h : c ∈ trim x) : c ∈ x := by
  unfold trim trimR trimL at h
  have h1 := List.mem_reverse.mp h
  have h2 := (List.dropWhile_sublist _).mem h1
  have h3 := List.mem_reverse.mp h2
  exact (List.dropWhile_sublist _).mem h3

theorem trimL_suffix_md (x : List Char) (h : hasSuffix x mdExt = true) :
    hasSuffix (trimL x) mdExt = true := by
  rcases (hasSuffix_iff _ _).mp h with ⟨p, rfl⟩
  clear h
  induction p with
  | nil => decide
  | cons c p ih =>
    show hasSuffix (List.dropWhile isWs (c :: (p ++ mdExt))) mdExt = true
    rw [List.dropWhile_cons]
    split
    · exact ih
    · simpa using hasSuffix_append (c :: p) mdExt

theorem trimR_of_suffix_md (x : List Char) (h : hasSuffix x mdExt = true) : trimR x = x := by
  rcases (hasSuffix_iff _ _).mp h with ⟨p, rfl⟩
  unfold trimR
  rw [List.reverse_append, show mdExt.reverse = 'd' :: 'm' :: '.' :: [] from by decide,
    List.cons_append, List.dropWhile_cons]
  simp only [show isWs 'd' = false from by decide]
  simp [mdExt, chars]

theorem trim_suffix_md (x : List Char) (h : hasSuffix x mdExt = true) :
    hasSuffix (trim x) mdExt = true := by
  unfold trim
  rw [trimR_of_suffix_md _ (trimL_suffix_md _ h)]
  exact trimL_suffix_md _ h

theorem drop2_suffix_md (t : List Char) (h : hasSuffix t mdExt = true)
    (hl : leadsWith (chars ("./")) t = true) : hasSuffix (t.drop 2) mdExt = true := by
  rcases (hasSuffix_iff _ _).mp h with ⟨p, hp⟩
  rcases (leadsWith_iff _ _).mp hl with ⟨r, hr⟩
  subst hp
  rw [show chars ("./") = '.' :: '/' :: [] from by decide] at hr
  match p, hr with
  | [], hr =>
    rw [show (([] : List Char) ++ mdExt) = '.' :: 'm' :: 'd' :: [] from by decide] at hr
    simp at hr
  | [c], hr =>
    rw [show mdExt = '.' :: 'm' :: 'd' :: [] from by decide] at hr
    simp at hr
  | c1 :: c2 :: p2, hr =>
    rw [show ((c1 :: c2 :: p2) ++ mdExt).drop 2 = p2 ++ mdExt from rfl]
    exact hasSuffix_append _ _

theorem suffix_md_hash_split (t a b : List Char) (ht : hasSuffix t mdExt = true)
    (heq : t = a ++ '#' :: b) : hasSuffix b mdExt = true := by
  rcases (hasSuffix_iff _ _).mp ht with ⟨p, hp⟩
  have hrev : b.reverse ++ '#' :: a.reverse = 'd' :: 'm' :: '.' :: p.reverse := by
    have h2 : (a ++ '#' :: b).reverse = (p ++ mdExt).reverse := by rw [← heq, ← hp]
    rw [List.reverse_append, List.reverse_append, List.reverse_cons,
      show mdExt.reverse = 'd' :: 'm' :: '.' :: [] from by decide] at h2
    simpa using h2
  rcases hb : b.reverse with _ | ⟨x, _ | ⟨y, _ | ⟨z, w⟩⟩⟩
  · rw [hb] at hrev
    simp only [List.nil_append] at hrev
    injection hrev with h1 _
    exact absurd h1 (by decide)
  · rw [hb] at hrev
    simp only [List.cons_append, List.nil_append] at hrev
    injection hrev with _ hrev2
    injection hrev2 with h2 _
    exact absurd h2 (by decide)
  · rw [hb] at hrev
    simp only [List.cons_append, List.nil_append] at hrev
    injection hrev with _ hrev2
    injection hrev2 with _ hrev3
    injection hrev3 with h3 _
    exact absurd h3 (by decide)
  · rw [hb] at hrev
    simp only [List.cons_append] at hrev
    injection hrev with h1 hrev2
    injection hrev2 with h2 hrev3
    injection hrev3 with h3 _
    rw [hasSuffix_iff]
    refine ⟨w.reverse, ?_⟩
    rw [← List.reverse_reverse b, hb, h1, h2, h3]
    rw [show ('d' :: 'm' :: '.' :: w : List Char).reverse = w.reverse ++ '.' :: 'm' :: 'd' :: []
      from by simp]
    rw [show ('.' :: 'm' :: 'd' :: [] : List Char) = mdExt from by decide]

theorem wikiMatchAt_target (s g1 : List Char) (g2 : Option (List Char)) (rest : List Char)
    (h : wikiMatchAt s = some (g1, g2, rest)) : ∀ c ∈ g1, c ≠ '#' := by
  unfold wikiMatchAt at h
  split at h
  · simp only [] at h
    split at h
    · cases h
    · split at h
      · split at h
        · simp only [Option.some.injEq, Prod.mk.injEq] at h
          rcases h with ⟨h1, _⟩
          subst h1
          intro c hc
          have := List.mem_takeWhile_imp hc
          simp only [Bool.not_eq_eq_eq_not, Bool.not_true, Bool.or_eq_false_iff,
            beq_eq_false_iff_ne, ne_eq] at this
          exact this.2
        · cases h
      · simp only [Option.some.injEq, Prod.mk.injEq] at h
        rcases h with ⟨h1, _⟩
        subst h1
        intro c hc
        have := List.mem_takeWhile_imp hc
        simp only [Bool.not_eq_eq_eq_not, Bool.not_true, Bool.or_eq_false_iff,
          beq_eq_false_iff_ne, ne_eq] at this
        exact this.2
      · cases h
  · cases h

theorem mdMatchAt_target (s g1 g2 rest : List Char)
    (h : mdMatchAt s = some (g1, g2, rest)) : hasSuffix g2 mdExt = true := by
  unfold mdMatchAt at h
  split at h
  · simp only [] at h
    split at h
    · split at h
      · split at h
        · rename_i k hk
          simp only [Option.some.injEq, Prod.mk.injEq] at h
          rcases h with ⟨_, h2, _⟩
          subst h2
          rcases List.exists_of_findSome?_eq_some hk with ⟨n, _, hn⟩
          split at hn
          · rename_i hcond
            cases hn
            exact hcond.2.1
          · cases hn
        · cases h
      · cases h
    · cases h
  · cases h

theorem scanWiki_sound (P : List Char × Option (List Char) → Prop)
    (hP : ∀ s g1 g2 rest, wikiMatchAt s = some (g1, g2, rest) → P (g1, g2)) :
    ∀ fuel s, ∀ m ∈ scanWikiAux fuel s, P m := by
  intro fuel
  induction fuel with
  | zero => intro s m hm; simp [scanWikiAux] at hm
  | succ fuel ih =>
    intro s m hm
    cases s with
    | nil => simp [scanWikiAux] at hm
    | cons c cs =>
      rw [scanWikiAux] at hm
      rcases hw : wikiMatchAt (c :: cs) with _ | ⟨g1, g2, rest⟩
      · rw [hw] at hm
        exact ih cs m hm
      · rw [hw] at hm
        rcases List.mem_cons.mp hm with rfl | hm'
        · exact hP _ _ _ _ hw
        · exact ih rest m hm'

theorem scanMd_sound (P : List Char × List Char → Prop)
    (hP : ∀ s g1 g2 rest, mdMatchAt s = some (g1, g2, rest) → P (g1, g2)) :
    ∀ fuel s, ∀ m ∈ scanMdAux fuel s, P m := by
  intro fuel
  induction fuel with
  | zero => intro s m hm; simp [scanMdAux] at hm
  | succ fuel ih =>
    intro s m hm
    cases s with
    | nil => simp [scanMdAux] at hm
    | cons c cs =>
      rw [scanMdAux] at hm
      rcases hw : mdMatchAt (c :: cs) with _ | ⟨g1, g2, rest⟩
      · rw [hw] at hm
        exact ih cs m hm
      · rw [hw] at hm
        rcases List.mem_cons.mp hm with rfl | hm'
        · exact hP _ _ _ _ hw
        · exact ih rest m hm'


/-- C10: the extractor does not discard a bracket link whose target trims to
the empty string: the input consisting of one whitespace-only bracket link
yields a raw link whose target is exactly the bare extension, and in the
statistics pass that link is unresolvable and contributes the empty string to
the unresolved-links list. -/
theorem c10_empty_target :
    extractLinks (chars ("[[ ]]")) = [{ target := chars (".md"), «alias» := none }] ∧
    (getGraphStats [chars ("a.md")]
        (fun p => if p == chars ("a.md") then some (chars ("[[ ]]")) else none) 10).unresolvedLinks
      = [([] : List Char)] := by decide

/-- C5 counterexample: an inline markdown link whose heading fragment itself
ends in the canonical extension is not discarded: the greedy target group
swallows the hash and the fragment, so the extracted target contains a hash. -/
theorem c5_counterexample :
    extractLinks (chars ("[a](x.md#y.md)")) =
      [{ target := chars ("x.md#y.md"), «alias» := some (chars ("a")) }] ∧
    '#' ∈ chars ("x.md#y.md") := by decide

/-- C5 amended: every extracted link target ends in the canonical extension,
and whenever a target contains a hash, the text after that hash itself ends
in the canonical extension.  Hence a heading fragment that does not end in
.md is always discarded (the original claim), but a fragment ending in .md
is folded into the target by the greedy match. -/
theorem c5_amended (content : List Char) :
    ∀ l ∈ extractLinks content,
      hasSuffix l.target mdExt = true ∧
      ∀ a b, l.target = a ++ '#' :: b → hasSuffix b mdExt = true := by
  intro l hl
  unfold extractLinks at hl
  rcases List.mem_append.mp hl with hw | hm
  · rcases List.mem_filterMap.mp hw with ⟨m, hmem, hf⟩
    by_cases hemp : m.1.isEmpty
    · rw [if_pos hemp] at hf
      cases hf
    · rw [if_neg hemp] at hf
      cases hf
      have hg1 : ∀ c ∈ m.1, c ≠ '#' :=
        scanWiki_sound (fun m => ∀ c ∈ m.1, c ≠ '#')
          (fun s g1 g2 rest hh => wikiMatchAt_target s g1 g2 rest hh) _ _ m hmem
      refine ⟨normalizeTarget_suffix _, ?_⟩
      intro a b heq
      exfalso
      have hhash : '#' ∈ normalizeTarget (trim m.1) := by
        have h1 : '#' ∈ a ++ '#' :: b := List.mem_append_right a (List.mem_cons_self _ _)
        rw [← heq] at h1
        exact h1
      have hno : '#' ∉ normalizeTarget (trim m.1) := by
        intro hin
        unfold normalizeTarget at hin
        have hintrim : '#' ∈ trim m.1 := by
          rcases (by exact hin : '#' ∈ if hasSuffix (trim m.1) mdExt = true
              then trim m.1 else trim m.1 ++ mdExt) with h
          split at h
          · exact h
          · rcases List.mem_append.mp h with h' | h'
            · exact h'
            · exact absurd h' (by decide)
        exact hg1 '#' (mem_trim _ _ hintrim) rfl
      exact hno hhash
  · rcases List.mem_filterMap.mp hm with ⟨m, hmem, hf⟩
    by_cases hemp : m.2.isEmpty
    · rw [if_pos hemp] at hf
      cases hf
    · rw [if_neg hemp] at hf
      cases hf
      have hg2 : hasSuffix m.2 mdExt = true :=
        scanMd_sound (fun m => hasSuffix m.2 mdExt = true)
          (fun s g1 g2 rest hh => mdMatchAt_target s g1 g2 rest hh) _ _ m hmem
      have ht : hasSuffix (trim m.2) mdExt = true := trim_suffix_md _ hg2
      have htgt : hasSuffix
          (if leadsWith (chars ("./")) (trim m.2) = true
            then (trim m.2).drop 2 else trim m.2) mdExt = true := by
        split
        · rename_i hlead
          exact drop2_suffix_md _ ht hlead
        · exact ht
      exact ⟨htgt, fun a b heq => suffix_md_hash_split _ a b htgt heq⟩

theorem c5_amended_witness :
    hasSuffix (chars ("x.md#y.md")) mdExt = true ∧
    hasSuffix (chars ("y.md")) mdExt = true :=
  ⟨(c5_amended (chars ("[a](x.md#y.md)"))
      { target := chars ("x.md#y.md"), «alias» := some (chars ("a")) } (by decide)).1,
   (c5_amended (chars ("[a](x.md#y.md)"))
      { target := chars ("x.md#y.md"), «alias» := some (chars ("a")) } (by decide)).2
      (chars ("x.md")) (chars ("y.md")) (by decide)⟩

/-- C6: the backlinks query normalizes the path to carry the extension and
returns exactly the edges whose target equals the normalized path or ends
with a slash followed by it, each result carrying the source identifier and
the alias when present; concretely, querying x matches both an edge
targeting x.md exactly and one targeting folder/x.md. -/
theorem c6_backlinks (notes : List (List Char)) (readF : List Char → Option (List Char))
    (p : List Char) :
    (getBacklinks notes readF p).path = normalizeTarget p ∧
    (∀ e ∈ (getGraph notes readF).edges,
      (e.«to» = normalizeTarget p ∨ ∃ pre, e.«to» = pre ++ '/' :: normalizeTarget p) →
        ({ «from» := e.«from», context := e.label } : BacklinkInfo)
          ∈ (getBacklinks notes readF p).backlinks) ∧
    (∀ b ∈ (getBacklinks notes readF p).backlinks,
      ∃ e ∈ (getGraph notes readF).edges,
        b = { «from» := e.«from», context := e.label } ∧
        (e.«to» = normalizeTarget p ∨ ∃ pre, e.«to» = pre ++ '/' :: normalizeTarget p)) ∧
    getBacklinks backNotes backRead (chars ("x"))
      = { path := chars ("x.md"),
          backlinks := [{ «from» := chars ("a.md"), context := none },
                        { «from» := chars ("a.md"), context := some (chars ("Alias")) }] } := by
  refine ⟨rfl, ?_, ?_, by decide⟩
  · intro e he hmatch
    refine List.mem_map.mpr ⟨e, List.mem_filter.mpr ⟨he, ?_⟩, rfl⟩
    rcases hmatch with h | ⟨pre, h⟩
    · simp [h]
    · have hsuf : hasSuffix e.«to» ('/' :: normalizeTarget p) = true :=
        (hasSuffix_iff _ _).mpr ⟨pre, h⟩
      simp [hsuf]
  · intro b hb
    rcases List.mem_map.mp hb with ⟨e, hef, rfl⟩
    rcases List.mem_filter.mp hef with ⟨he, hpred⟩
    refine ⟨e, he, rfl, ?_⟩
    rcases Bool.or_eq_true_iff.mp hpred with h | h
    · exact Or.inl (by simpa using h)
    · exact Or.inr ((hasSuffix_iff _ _).mp h)

theorem c6_backlinks_witness :
    ({ «from» := chars ("a.md"), context := some (chars ("Alias")) } : BacklinkInfo)
      ∈ (getBacklinks backNotes backRead (chars ("x"))).backlinks :=
  (c6_backlinks backNotes backRead (chars ("x"))).2.1
    { «from» := chars ("a.md"), «to» := chars ("x.md"), label := some (chars ("Alias")) }
    (by decide) (Or.inl (by decide))


theorem mem_condList (c : Bool) (y x : List Char) :
    x ∈ (if c = true then [y] else ([] : List (List Char))) ↔ c = true ∧ x = y := by
  cases c <;> simp

theorem adjIn_nil (u x : List Char) : ¬ adjIn [] u x := by simp [adjIn]

theorem adjIn_cons (e : GraphEdge) (es : List GraphEdge) (u x : List Char) :
    adjIn (e :: es) u x ↔
      ((e.«from» = u ∧ e.«to» = x) ∨ (e.«to» = u ∧ e.«from» = x)) ∨ adjIn es u x := by
  unfold adjIn
  constructor
  · rintro ⟨e', he', hp⟩
    rcases List.mem_cons.mp he' with rfl | h
    · exact Or.inl hp
    · exact Or.inr ⟨e', h, hp⟩
  · rintro (hp | ⟨e', he', hp⟩)
    · exact ⟨e, List.mem_cons_self _ _, hp⟩
    · exact ⟨e', List.mem_cons_of_mem _ he', hp⟩

theorem visitEdge1_eq (u : List Char) (d : Nat) (e : GraphEdge)
    (inc : List (List Char)) (acc : List (List Char × Nat)) :
    visitEdge1 u d e (inc, acc) =
      (inc ++ (if (e.«from» == u && !(inc.contains e.«to»)) = true then [e.«to»] else []),
       acc ++ ((if (e.«from» == u && !(inc.contains e.«to»)) = true then [e.«to»] else []).map
         (fun x => (x, d)))) := by
  unfold visitEdge1
  split <;> simp_all

theorem visitEdge2_eq (u : List Char) (d : Nat) (e : GraphEdge)
    (inc : List (List Char)) (acc : List (List Char × Nat)) :
    visitEdge2 u d e (inc, acc) =
      (inc ++ (if (e.«to» == u && !(inc.contains e.«from»)) = true then [e.«from»] else []),
       acc ++ ((if (e.«to» == u && !(inc.contains e.«from»)) = true then [e.«from»] else []).map
         (fun x => (x, d)))) := by
  unfold visitEdge2
  split <;> simp_all

theorem visitEdges_eq (u : List Char) (d : Nat) (es : List GraphEdge) :
    ∀ inc acc, visitEdges u d es (inc, acc) =
      (inc ++ freshL u es inc, acc ++ (freshL u es inc).map (fun x => (x, d))) := by
  induction es with
  | nil => intro inc acc; simp [visitEdges, freshL]
  | cons e es ih =>
    intro inc acc
    show visitEdges u d es (visitEdge2 u d e (visitEdge1 u d e (inc, acc))) = _
    rw [visitEdge1_eq, visitEdge2_eq, ih]
    simp only [freshL]
    simp [List.append_assoc, List.map_append]

theorem not_contains_of_not_mem (l : List (List Char)) (x : List Char) (h : x ∉ l) :
    (!(l.contains x)) = true := by
  cases h' : l.contains x
  · rfl
  · exact absurd ((contains_iff _ _).mp h') h

theorem not_mem_of_not_contains (l : List (List Char)) (x : List Char)
    (h : (!(l.contains x)) = true) : x ∉ l := by
  intro hx
  rw [(contains_iff _ _).mpr hx] at h
  simp at h

theorem freshL_not_mem (u : List Char) (es : List GraphEdge) :
    ∀ inc x, x ∈ freshL u es inc → x ∉ inc := by
  induction es with
  | nil => intro inc x h; simp [freshL] at h
  | cons e es ih =>
    intro inc x h
    simp only [freshL] at h
    rcases List.mem_append.mp h with h12 | h3
    · rcases List.mem_append.mp h12 with h1 | h2
      · rcases (mem_condList _ _ _).mp h1 with ⟨hc, rfl⟩
        rcases Bool.and_eq_true_iff.mp hc with ⟨_, hnc⟩
        simpa using hnc
      · rcases (mem_condList _ _ _).mp h2 with ⟨hc, rfl⟩
        rcases Bool.and_eq_true_iff.mp hc with ⟨_, hnc⟩
        have hn := not_mem_of_not_contains _ _ hnc
        exact fun hxinc => hn (List.mem_append_left _ hxinc)
    · have := ih _ x h3
      exact fun hxinc => this (List.mem_append_left _ (List.mem_append_left _ hxinc))

theorem freshL_adj (u : List Char) (es : List GraphEdge) :
    ∀ inc x, x ∈ freshL u es inc → adjIn es u x := by
  induction es with
  | nil => intro inc x h; simp [freshL] at h
  | cons e es ih =>
    intro inc x h
    simp only [freshL] at h
    rw [adjIn_cons]
    rcases List.mem_append.mp h with h12 | h3
    · rcases List.mem_append.mp h12 with h1 | h2
      · rcases (mem_condList _ _ _).mp h1 with ⟨hc, rfl⟩
        rcases Bool.and_eq_true_iff.mp hc with ⟨hbe, _⟩
        exact Or.inl (Or.inl ⟨beq_iff_eq.mp hbe, rfl⟩)
      · rcases (mem_condList _ _ _).mp h2 with ⟨hc, rfl⟩
        rcases Bool.and_eq_true_iff.mp hc with ⟨hbe, _⟩
        exact Or.inl (Or.inr ⟨beq_iff_eq.mp hbe, rfl⟩)
    · exact Or.inr (ih _ x h3)

theorem freshL_complete (u : List Char) (es : List GraphEdge) :
    ∀ inc x, adjIn es u x → x ∈ inc ∨ x ∈ freshL u es inc := by
  induction es with
  | nil => intro inc x h; exact absurd h (adjIn_nil u x)
  | cons e es ih =>
    intro inc x h
    by_cases hxinc : x ∈ inc
    · exact Or.inl hxinc
    · right
      simp only [freshL]
      rw [adjIn_cons] at h
      rcases h with (⟨hfu, htx⟩ | ⟨htu, hfx⟩) | hrec
      · have hc1 : (e.«from» == u && !(inc.contains e.«to»)) = true := by
          rw [Bool.and_eq_true_iff]
          refine ⟨beq_iff_eq.mpr hfu, ?_⟩
          rw [htx]
          simp [hxinc]
        exact List.mem_append_left _
          (List.mem_append_left _ ((mem_condList _ _ _).mpr ⟨hc1, htx.symm⟩))
      · by_cases hxf1 : x ∈ (if (e.«from» == u && !(inc.contains e.«to»)) = true
            then [e.«to»] else ([] : List (List Char)))
        · exact List.mem_append_left _ (List.mem_append_left _ hxf1)
        · have hnotin : e.«from» ∉ inc ++
              (if (e.«from» == u && !(inc.contains e.«to»)) = true then [e.«to»] else []) := by
            intro hmem
            rcases List.mem_append.mp hmem with hm | hm
            · exact hxinc (hfx ▸ hm)
            · rcases (mem_condList _ _ _).mp hm with ⟨hcc, hfe⟩
              exact hxf1 ((mem_condList _ _ _).mpr ⟨hcc, hfx.symm.trans hfe⟩)
          have hc2 : (e.«to» == u && !((inc ++
              (if (e.«from» == u && !(inc.contains e.«to»)) = true then [e.«to»] else [])).contains
                e.«from»)) = true := by
            rw [Bool.and_eq_true_iff]
            exact ⟨beq_iff_eq.mpr htu, not_contains_of_not_mem _ _ hnotin⟩
          exact List.mem_append_left _
            (List.mem_append_right _ ((mem_condList _ _ _).mpr ⟨hc2, hfx.symm⟩))
      · rcases ih ((inc ++
            (if (e.«from» == u && !(inc.contains e.«to»)) = true then [e.«to»] else [])) ++
              (if (e.«to» == u && !((inc ++
                (if (e.«from» == u && !(inc.contains e.«to»)) = true then [e.«to»] else [])).contains
                  e.«from»)) = true then [e.«from»] else [])) x hrec with hmem | hmem
        · rcases List.mem_append.mp hmem with hm | hm
          · rcases List.mem_append.mp hm with hm' | hm'
            · exact absurd hm' hxinc
            · exact List.mem_append_left _ (List.mem_append_left _ hm')
          · exact List.mem_append_left _ (List.mem_append_right _ hm)
        · exact List.mem_append_right _ hmem

theorem freshL_mem_iff (u : List Char) (es : List GraphEdge) (inc : List (List Char)) (x : List Char) :
    x ∈ freshL u es inc ↔ adjIn es u x ∧ x ∉ inc := by
  constructor
  · intro h
    exact ⟨freshL_adj u es inc x h, freshL_not_mem u es inc x h⟩
  · rintro ⟨hadj, hnot⟩
    rcases freshL_complete u es inc x hadj with h | h
    · exact absurd h hnot
    · exact h

theorem mem_append_freshL (u : List Char) (es : List GraphEdge) (inc : List (List Char)) (x : List Char) :
    x ∈ inc ++ freshL u es inc ↔ x ∈ inc ∨ adjIn es u x := by
  rw [List.mem_append, freshL_mem_iff]
  by_cases hx : x ∈ inc
  · simp [hx]
  · simp [hx]


theorem levelExpand_fst (edges : List GraphEdge) :
    ∀ (fr inc : List (List Char)) (x : List Char),
      x ∈ (levelExpand edges fr inc).1 ↔ x ∈ inc ∨ ∃ u ∈ fr, adjIn edges u x := by
  intro fr
  induction fr with
  | nil => intro inc x; simp [levelExpand]
  | cons u us ih =>
    intro inc x
    show x ∈ (levelExpand edges us (inc ++ freshL u edges inc)).1 ↔ _
    rw [ih]
    constructor
    · rintro (h | ⟨v, hv, hadj⟩)
      · rcases (mem_append_freshL u edges inc x).mp h with h' | h'
        · exact Or.inl h'
        · exact Or.inr ⟨u, List.mem_cons_self _ _, h'⟩
      · exact Or.inr ⟨v, List.mem_cons_of_mem _ hv, hadj⟩
    · rintro (h | ⟨v, hv, hadj⟩)
      · exact Or.inl ((mem_append_freshL u edges inc x).mpr (Or.inl h))
      · rcases List.mem_cons.mp hv with rfl | hv'
        · exact Or.inl ((mem_append_freshL v edges inc x).mpr (Or.inr hadj))
        · exact Or.inr ⟨v, hv', hadj⟩

theorem levelExpand_snd (edges : List GraphEdge) :
    ∀ (fr inc : List (List Char)) (x : List Char),
      x ∈ (levelExpand edges fr inc).2 ↔ (∃ u ∈ fr, adjIn edges u x) ∧ x ∉ inc := by
  intro fr
  induction fr with
  | nil => intro inc x; simp [levelExpand]
  | cons u us ih =>
    intro inc x
    show x ∈ freshL u edges inc ++ (levelExpand edges us (inc ++ freshL u edges inc)).2 ↔ _
    rw [List.mem_append, freshL_mem_iff, ih]
    constructor
    · rintro (⟨hadj, hnot⟩ | ⟨⟨v, hv, hadj⟩, hnot⟩)
      · exact ⟨⟨u, List.mem_cons_self _ _, hadj⟩, hnot⟩
      · exact ⟨⟨v, List.mem_cons_of_mem _ hv, hadj⟩,
          fun hmem => hnot (List.mem_append_left _ hmem)⟩
    · rintro ⟨⟨v, hv, hadj⟩, hnot⟩
      rcases List.mem_cons.mp hv with rfl | hv'
      · exact Or.inl ⟨hadj, hnot⟩
      · by_cases hxf : x ∈ freshL u edges inc
        · exact Or.inl ⟨freshL_adj u edges inc x hxf, hnot⟩
        · refine Or.inr ⟨⟨v, hv', hadj⟩, ?_⟩
          intro hmem
          rcases List.mem_append.mp hmem with h | h
          · exact hnot h
          · exact hxf h

theorem spread_congr (edges : List GraphEdge) (S T : List Char → Prop)
    (h : ∀ x, S x ↔ T x) : ∀ (k : Nat) (x : List Char),
      spread edges S k x ↔ spread edges T k x := by
  intro k
  induction k with
  | zero => intro x; exact h x
  | succ k ih =>
    intro x
    show spread edges S k x ∨ (∃ u, spread edges S k u ∧ adjIn edges u x) ↔
      spread edges T k x ∨ (∃ u, spread edges T k u ∧ adjIn edges u x)
    constructor
    · rintro (hx | ⟨u, hu, hadj⟩)
      · exact Or.inl ((ih x).mp hx)
      · exact Or.inr ⟨u, (ih u).mp hu, hadj⟩
    · rintro (hx | ⟨u, hu, hadj⟩)
      · exact Or.inl ((ih x).mpr hx)
      · exact Or.inr ⟨u, (ih u).mpr hu, hadj⟩

theorem spread_shift (edges : List GraphEdge) (S : List Char → Prop) :
    ∀ (k : Nat) (x : List Char), spread edges S (k + 1) x ↔
      spread edges (fun y => S y ∨ ∃ u, S u ∧ adjIn edges u y) k x := by
  intro k
  induction k with
  | zero => intro x; exact Iff.rfl
  | succ k ih =>
    intro x
    show spread edges S (k + 1) x ∨ (∃ u, spread edges S (k + 1) u ∧ adjIn edges u x) ↔
      spread edges _ k x ∨ (∃ u, spread edges _ k u ∧ adjIn edges u x)
    constructor
    · rintro (hx | ⟨u, hu, hadj⟩)
      · exact Or.inl ((ih x).mp hx)
      · exact Or.inr ⟨u, (ih u).mp hu, hadj⟩
    · rintro (hx | ⟨u, hu, hadj⟩)
      · exact Or.inl ((ih x).mpr hx)
      · exact Or.inr ⟨u, (ih u).mpr hu, hadj⟩

theorem lbfs_mem (edges : List GraphEdge) :
    ∀ (r : Nat) (fr inc : List (List Char)),
      (∀ x ∈ fr, x ∈ inc) →
      (∀ v ∈ inc, v ∉ fr → ∀ x, adjIn edges v x → x ∈ inc) →
      ∀ y, y ∈ lbfs edges r fr inc ↔ spread edges (fun z => z ∈ inc) r y := by
  intro r
  induction r with
  | zero => intro fr inc _ _ y; exact Iff.rfl
  | succ r ih =>
    intro fr inc hsub hclosed y
    show y ∈ lbfs edges r (levelExpand edges fr inc).2 (levelExpand edges fr inc).1 ↔ _
    have hsub' : ∀ x ∈ (levelExpand edges fr inc).2, x ∈ (levelExpand edges fr inc).1 := by
      intro x hx
      rcases (levelExpand_snd edges fr inc x).mp hx with ⟨⟨v, hv, hadj⟩, _⟩
      exact (levelExpand_fst edges fr inc x).mpr (Or.inr ⟨v, hv, hadj⟩)
    have hclosed' : ∀ v ∈ (levelExpand edges fr inc).1, v ∉ (levelExpand edges fr inc).2 →
        ∀ x, adjIn edges v x → x ∈ (levelExpand edges fr inc).1 := by
      intro v hv hnv x hadj
      by_cases hvinc : v ∈ inc
      · by_cases hvfr : v ∈ fr
        · exact (levelExpand_fst edges fr inc x).mpr (Or.inr ⟨v, hvfr, hadj⟩)
        · exact (levelExpand_fst edges fr inc x).mpr
            (Or.inl (hclosed v hvinc hvfr x hadj))
      · rcases (levelExpand_fst edges fr inc v).mp hv with h | h
        · exact absurd h hvinc
        · exact absurd ((levelExpand_snd edges fr inc v).mpr ⟨h, hvinc⟩) hnv
    rw [ih _ _ hsub' hclosed' y, spread_shift]
    apply spread_congr
    intro z
    rw [levelExpand_fst]
    constructor
    · rintro (h | ⟨u, hu, hadj⟩)
      · exact Or.inl h
      · exact Or.inr ⟨u, hsub u hu, hadj⟩
    · rintro (h | ⟨u, hu, hadj⟩)
      · exact Or.inl h
      · by_cases hufr : u ∈ fr
        · exact Or.inr ⟨u, hufr, hadj⟩
        · exact Or.inl (hclosed u hu hufr z hadj)

theorem bfs_skip (edges : List GraphEdge) (depth : Nat) :
    ∀ (q : List (List Char × Nat)) (inc : List (List Char)),
      (∀ pr ∈ q, depth ≤ pr.2) → bfs edges depth q inc = inc := by
  intro q
  induction q with
  | nil => intro inc _; simp [bfs]
  | cons pr rest ih =>
    intro inc hall
    rcases pr with ⟨u, d⟩
    rw [bfs]
    rw [if_pos (hall (u, d) (List.mem_cons_self _ _))]
    exact ih inc (fun pr h => hall pr (List.mem_cons_of_mem _ h))


theorem bfs_level (edges : List GraphEdge) (depth d : Nat) (hd : d < depth) :
    ∀ (A B inc : List (List Char)),
      bfs edges depth (A.map (fun x => (x, d)) ++ B.map (fun x => (x, d + 1))) inc
        = bfs edges depth ((B ++ (levelExpand edges A inc).2).map (fun x => (x, d + 1)))
            (levelExpand edges A inc).1 := by
  intro A
  induction A with
  | nil => intro B inc; simp [levelExpand]
  | cons u us ih =>
    intro B inc
    rw [List.map_cons, List.cons_append, bfs, if_neg (by omega), visitEdges_eq]
    simp only [List.nil_append]
    have hq : (us.map (fun x => (x, d)) ++ B.map (fun x => (x, d + 1))) ++
        (freshL u edges inc).map (fun x => (x, d + 1))
        = us.map (fun x => (x, d)) ++ (B ++ freshL u edges inc).map (fun x => (x, d + 1)) := by
      rw [List.map_append, List.append_assoc]
    rw [hq, ih (B ++ freshL u edges inc) (inc ++ freshL u edges inc)]
    show _ = bfs edges depth ((B ++ (freshL u edges inc ++
      (levelExpand edges us (inc ++ freshL u edges inc)).2)).map (fun x => (x, d + 1)))
      (levelExpand edges us (inc ++ freshL u edges inc)).1
    rw [← List.append_assoc]

theorem bfs_eq_lbfs (edges : List GraphEdge) (depth : Nat) :
    ∀ (r d : Nat) (fr inc : List (List Char)), depth - d = r →
      bfs edges depth (fr.map (fun x => (x, d))) inc = lbfs edges r fr inc := by
  intro r
  induction r with
  | zero =>
    intro d fr inc hr
    have hd : depth ≤ d := by omega
    rw [bfs_skip]
    · rfl
    · intro pr hpr
      rcases List.mem_map.mp hpr with ⟨x, _, rfl⟩
      exact hd
  | succ r ih =>
    intro d fr inc hr
    have hd : d < depth := by omega
    have h0 : fr.map (fun x => (x, d)) =
        fr.map (fun x => (x, d)) ++ ([] : List (List Char)).map (fun x => (x, d + 1)) := by
      simp
    rw [h0, bfs_level edges depth d hd fr [] inc]
    show _ = lbfs edges r (levelExpand edges fr inc).2 (levelExpand edges fr inc).1
    rw [show ([] : List (List Char)) ++ (levelExpand edges fr inc).2
      = (levelExpand edges fr inc).2 from List.nil_append _]
    exact ih (d + 1) _ _ (by omega)

theorem localIncluded_eq_lbfs (g : Graph) (c : List Char) (depth : Nat) :
    localIncluded g c depth = lbfs g.edges depth [c] [c] := by
  unfold localIncluded
  rw [show [(c, (0 : Nat))] = [c].map (fun x => (x, (0 : Nat))) from rfl]
  exact bfs_eq_lbfs g.edges depth depth 0 [c] [c] (by omega)

theorem localIncluded_mem (g : Graph) (c : List Char) (depth : Nat) (x : List Char) :
    x ∈ localIncluded g c depth ↔ reachable g.edges c depth x := by
  rw [localIncluded_eq_lbfs,
    lbfs_mem g.edges depth [c] [c] (fun y hy => hy) (fun v hv hnv => absurd hv hnv) x]
  unfold reachable
  apply spread_congr
  intro z
  simp


theorem localIncluded_zero (g : Graph) (c : List Char) : localIncluded g c 0 = [c] := by
  rw [localIncluded_eq_lbfs]
  rfl

theorem findCenter_mem (g : Graph) (norm : List Char) (n : GraphNode)
    (h : findCenter g norm = some n) : n ∈ g.nodes := by
  unfold findCenter at h
  split at h
  · rename_i n' heq
    cases h
    exact List.mem_of_find?_eq_some heq
  · exact List.mem_of_find?_eq_some h

theorem getGraph_node_ids (notes : List (List Char)) (readF : List Char → Option (List Char)) :
    (getGraph notes readF).nodes.map (fun n => n.id) = notes := by
  rw [getGraph_nodes, List.map_map]
  exact List.map_id notes

theorem getLocalGraph_eq (notes : List (List Char)) (readF : List Char → Option (List Char))
    (path : List Char) (depth : Nat) (centerNode : GraphNode)
    (hc : findCenter (getGraph notes readF) (normalizeTarget path) = some centerNode) :
    getLocalGraph notes readF path depth =
      { nodes := (getGraph notes readF).nodes.filter (fun n =>
          (localIncluded (getGraph notes readF) centerNode.id depth).contains n.id),
        edges := (getGraph notes readF).edges.filter (fun e =>
          (localIncluded (getGraph notes readF) centerNode.id depth).contains e.«from» &&
          (localIncluded (getGraph notes readF) centerNode.id depth).contains e.«to») } := by
  simp only [getLocalGraph]
  rw [hc]

theorem filter_single_node (ns : List GraphNode) (c : List Char) (n0 : GraphNode)
    (hnd : (ns.map (fun n => n.id)).Nodup) (hm : n0 ∈ ns) (hid : n0.id = c) :
    ns.filter (fun n => n.id == c) = [n0] := by
  induction ns with
  | nil => cases hm
  | cons m ms ih =>
    rw [List.map_cons, List.nodup_cons] at hnd
    rcases hnd with ⟨hmid, hnd'⟩
    rcases List.mem_cons.mp hm with rfl | hm'
    · rw [List.filter_cons_of_pos (by simp [hid])]
      have hnil : ms.filter (fun n => n.id == c) = [] := by
        rw [List.filter_eq_nil_iff]
        intro n hn hbe
        have hne : n.id = c := by simpa using hbe
        exact hmid (List.mem_map.mpr ⟨n, hn, hne.trans hid.symm⟩)
      rw [hnil]
    · by_cases hq : m.id = c
      · exfalso
        exact hmid (List.mem_map.mpr ⟨n0, hm', hid.trans hq.symm⟩)
      · rw [List.filter_cons_of_neg (by simp [hq])]
        exact ih hnd' hm'

/-- C4: the local subgraph around a located centre is the induced subgraph on
exactly the identifiers at undirected distance at most the depth bound from
the centre: its nodes are the graph nodes whose identifier is reachable, its
edges are exactly the full graph's edges with both endpoints reachable, depth
zero yields exactly the centre node and no edges, and on the concrete chain
A to B to C centred on A with depth one the result is nodes A, B and the
single edge from A to B. -/
theorem c4_local_subgraph (notes : List (List Char)) (readF : List Char → Option (List Char))
    (path : List Char) (depth : Nat) (centerNode : GraphNode)
    (hc : findCenter (getGraph notes readF) (normalizeTarget path) = some centerNode)
    (hnd : notes.Nodup) :
    (∀ x, (∃ n ∈ (getLocalGraph notes readF path depth).nodes, n.id = x) ↔
      ((∃ n ∈ (getGraph notes readF).nodes, n.id = x) ∧
        reachable (getGraph notes readF).edges centerNode.id depth x)) ∧
    (∀ e, e ∈ (getLocalGraph notes readF path depth).edges ↔
      (e ∈ (getGraph notes readF).edges ∧
        reachable (getGraph notes readF).edges centerNode.id depth e.«from» ∧
        reachable (getGraph notes readF).edges centerNode.id depth e.«to»)) ∧
    ((getLocalGraph notes readF path 0).nodes = [centerNode] ∧
      (getLocalGraph notes readF path 0).edges = []) ∧
    getLocalGraph chainNotes chainRead (chars ("A")) 1 =
      { nodes := [{ id := chars ("A.md"), label := chars ("A"),
                    links := 1, outlinks := 1, backlinks := 0 },
                  { id := chars ("B.md"), label := chars ("B"),
                    links := 2, outlinks := 1, backlinks := 1 }],
        edges := [{ «from» := chars ("A.md"), «to» := chars ("B.md"), label := none }] } := by
  have hmem : ∀ d (y : List Char),
      (localIncluded (getGraph notes readF) centerNode.id d).contains y = true ↔
        reachable (getGraph notes readF).edges centerNode.id d y := by
    intro d y
    rw [contains_iff, localIncluded_mem]
  refine ⟨?_, ?_, ⟨?_, ?_⟩, ?_⟩
  · intro x
    rw [getLocalGraph_eq notes readF path depth centerNode hc]
    constructor
    · rintro ⟨n, hn, rfl⟩
      rcases List.mem_filter.mp hn with ⟨hn', hcont⟩
      exact ⟨⟨n, hn', rfl⟩, (hmem depth n.id).mp hcont⟩
    · rintro ⟨⟨n, hn, rfl⟩, hreach⟩
      exact ⟨n, List.mem_filter.mpr ⟨hn, (hmem depth n.id).mpr hreach⟩, rfl⟩
  · intro e
    rw [getLocalGraph_eq notes readF path depth centerNode hc]
    constructor
    · intro he
      rcases List.mem_filter.mp he with ⟨he', hcont⟩
      rcases Bool.and_eq_true_iff.mp hcont with ⟨h1, h2⟩
      exact ⟨he', (hmem depth e.«from»).mp h1, (hmem depth e.«to»).mp h2⟩
    · rintro ⟨he, h1, h2⟩
      refine List.mem_filter.mpr ⟨he, ?_⟩
      rw [Bool.and_eq_true_iff]
      exact ⟨(hmem depth e.«from»).mpr h1, (hmem depth e.«to»).mpr h2⟩
  · rw [getLocalGraph_eq notes readF path 0 centerNode hc]
    show (getGraph notes readF).nodes.filter _ = [centerNode]
    rw [show (fun n : GraphNode =>
        (localIncluded (getGraph notes readF) centerNode.id 0).contains n.id)
      = (fun n : GraphNode => ([centerNode.id].contains n.id)) from by
        rw [localIncluded_zero]]
    have hstep : ∀ n : GraphNode, ([centerNode.id].contains n.id) = (n.id == centerNode.id) := by
      intro n
      simp only [List.contains]
      by_cases h : n.id = centerNode.id <;> simp [h]
    rw [show (fun n : GraphNode => ([centerNode.id].contains n.id))
      = (fun n : GraphNode => (n.id == centerNode.id)) from funext hstep]
    have hids : ((getGraph notes readF).nodes.map (fun n => n.id)).Nodup := by
      rw [getGraph_node_ids]
      exact hnd
    exact filter_single_node _ _ centerNode hids (findCenter_mem _ _ _ hc) rfl
  · rw [getLocalGraph_eq notes readF path 0 centerNode hc]
    show (getGraph notes readF).edges.filter _ = []
    rw [List.filter_eq_nil_iff]
    intro e he hb
    rcases Bool.and_eq_true_iff.mp hb with ⟨h1, h2⟩
    rw [localIncluded_zero] at h1 h2
    have hf : e.«from» = centerNode.id := by
      have := (contains_iff _ _).mp h1
      simpa using this
    have ht : e.«to» = centerNode.id := by
      have := (contains_iff _ _).mp h2
      simpa using this
    exact (getGraph_edge_spec notes readF e he).2.2.1 (hf.trans ht.symm)
  · have hfc : findCenter (getGraph chainNotes chainRead) (normalizeTarget (chars ("A")))
        = some { id := chars ("A.md"), label := chars ("A"),
                 links := 1, outlinks := 1, backlinks := 0 } := by decide
    rw [getLocalGraph_eq chainNotes chainRead (chars ("A")) 1 _ hfc, localIncluded_eq_lbfs]
    decide

theorem c4_local_subgraph_witness :
    (getLocalGraph chainNotes chainRead (chars ("A")) 0).edges = [] :=
  ((c4_local_subgraph chainNotes chainRead (chars ("A")) 1
    { id := chars ("A.md"), label := chars ("A"), links := 1, outlinks := 1, backlinks := 0 }
    (by decide) (by decide)).2.2.1).2

end GraphService
